import Mathlib

/-!
Shallow embedding of the index-management core of the alexandrie package
registry. The visible sources are `src/index/mod.rs` (the `Indexer` trait, its
default `yank_record`/`unyank_record` methods and the `Index` dispatcher),
`src/error.rs` (the `Error` and `AlexError` types and their HTTP rendering),
`src/config/database.rs` and `src/frontend/index.rs`. The concrete backend
(`src/index/cli.rs`) and the record model (`src/index/models.rs`) are not among
the visible sources; where a claim depends on them, the corresponding
definitions are modelled from the spec and are marked as such in their doc
comments.
-/

/-- A semantic-version pre-release identifier (the semver crate's
`Identifier`): either numeric or alphanumeric. -/
inductive SemverId where
  | num (n : Nat)
  | alpha (s : String)
deriving DecidableEq

/-- A semantic version, mirroring `semver::Version` as used by the index
(major, minor, patch and pre-release identifiers; build metadata does not
participate in precedence and is omitted). -/
structure Version where
  major : Nat
  minor : Nat
  patch : Nat
  pre : List SemverId
deriving DecidableEq

/-- Order key of a pre-release identifier: numeric identifiers sort below
alphanumeric ones; numeric ones compare numerically, alphanumeric ones
lexically in ASCII order (represented by the character codes). -/
def SemverId.key : SemverId → Nat ⊕ₗ List Nat
  | .num n => toLex (Sum.inl n)
  | .alpha s => toLex (Sum.inr (s.data.map Char.toNat))

/-- Order key of a version, implementing full semantic-version precedence:
major, minor, patch compared first; a version with a pre-release sorts below
the same version without one (the `Bool` component: `true` for an empty
pre-release list); pre-release lists compare lexicographically with a shorter
prefix sorting first. -/
def Version.key (v : Version) : Nat ×ₗ Nat ×ₗ Nat ×ₗ Bool ×ₗ List (Nat ⊕ₗ List Nat) :=
  toLex (v.major, toLex (v.minor, toLex (v.patch,
    toLex (v.pre.isEmpty, v.pre.map SemverId.key))))

/-- Strict semantic-version precedence. -/
def Version.lt (v w : Version) : Prop := v.key < w.key

/-- Non-strict semantic-version precedence. -/
def Version.le (v w : Version) : Prop := v.key ≤ w.key

instance : DecidableRel Version.lt :=
  fun v w => inferInstanceAs (Decidable (v.key < w.key))

instance : DecidableRel Version.le :=
  fun v w => inferInstanceAs (Decidable (v.key ≤ w.key))

/-- A version record (`CrateVersion`). Modelled from the spec:
`src/index/models.rs` is not among the visible sources; the spec's data model
lists name, version, dependency list (opaque, carried verbatim), feature map,
checksum and the tri-state yank flag. -/
structure CrateVersion where
  name : String
  vers : Version
  deps : List String
  features : List (String × List String)
  cksum : String
  yanked : Option Bool
deriving DecidableEq

/-- Whether a record counts as yanked for resolution: only an explicit `true`
does; an unset flag is treated as not-yanked. -/
def CrateVersion.isYanked (r : CrateVersion) : Bool := r.yanked == some true

/-- The stored index state, as the map from a package name to its ordered
record list; a name that was never published maps to the empty list. -/
abbrev Store := String → List CrateVersion

/-- Errors surfaced by the index operations. Modelled from the spec:
`src/index/cli.rs` is not among the visible sources; the spec's error taxonomy
names a not-found kind (`AlexError::CrateNotFound` carries the crate name in
`src/error.rs`) and a duplicate-version kind (no such variant appears in the
visible `AlexError` enum). -/
inductive IndexError where
  | crateNotFound (name : String)
  | duplicateVersion (name : String) (vers : Version)
deriving DecidableEq

/-- Keep the record with the higher version (the second on equal versions,
which the uniqueness invariant makes moot). -/
def maxStep (a b : CrateVersion) : CrateVersion :=
  if Version.lt a.vers b.vers then b else a

/-- The record among a list with the highest version; `none` on the empty
list. -/
def maxByVers : List CrateVersion → Option CrateVersion
  | [] => none
  | r :: rs => some (rs.foldl maxStep r)

/-- Modelled from the spec: `all_records` returns the full record list of a
package in stored order, the empty list when never published. -/
def all_records (store : Store) (name : String) : List CrateVersion := store name

/-- The non-yanked records of a package. -/
def nonYankedOf (store : Store) (name : String) : List CrateVersion :=
  (store name).filter (fun r => !r.isYanked)

/-- Modelled from the spec: `latest_record` returns the record with the
highest version among non-yanked records if any exist, else the highest
version among all records, and fails with the crate-not-found error when the
package has no records at all (`src/index/cli.rs` is not among the visible
sources). -/
def latest_record (store : Store) (name : String) : Except IndexError CrateVersion :=
  match maxByVers (if (nonYankedOf store name).isEmpty then store name
                   else nonYankedOf store name) with
  | some r => .ok r
  | none => .error (.crateNotFound name)

/-- The non-yanked records of a package whose version satisfies a
requirement. -/
def reqCandidatesOf (store : Store) (name : String) (req : Version → Bool) :
    List CrateVersion :=
  (store name).filter (fun r => !r.isYanked && req r.vers)

/-- Modelled from the spec: `match_record` selects the highest version among
the non-yanked records satisfying the requirement and fails with the
crate-not-found error when none does (`src/index/cli.rs` is not among the
visible sources). A requirement is modelled as a predicate on versions. -/
def match_record (store : Store) (name : String) (req : Version → Bool) :
    Except IndexError CrateVersion :=
  match maxByVers (reqCandidatesOf store name req) with
  | some r => .ok r
  | none => .error (.crateNotFound name)

/-- The store with one package's record list replaced. -/
def updateStore (store : Store) (name : String) (recs : List CrateVersion) : Store :=
  fun n => if n = name then recs else store n

/-- Modelled from the spec: `add_record` rejects a `(name, version)` that is
already present in the target package's list with a duplicate-version error,
otherwise appends the record (`src/index/cli.rs` is not among the visible
sources). An error produces no new store. -/
def add_record (store : Store) (record : CrateVersion) :
    Except IndexError Store :=
  if (store record.name).any (fun r => r.vers == record.vers) then
    .error (.duplicateVersion record.name record.vers)
  else
    .ok (updateStore store record.name (store record.name ++ [record]))

/-- Replace the first record whose version matches by its image under `f`;
`none` when no record matches. -/
def alterList (f : CrateVersion → CrateVersion) (version : Version) :
    List CrateVersion → Option (List CrateVersion)
  | [] => none
  | r :: rs =>
    if r.vers = version then some (f r :: rs)
    else
      match alterList f version rs with
      | some rs2 => some (r :: rs2)
      | none => none

/-- Modelled from the spec: `alter_record` locates the record matching
`(name, version)` — failing with a not-found error when absent — applies the
mutation to that record only and stores the re-encoded list
(`src/index/cli.rs` is not among the visible sources). -/
def alter_record (store : Store) (name : String) (version : Version)
    (f : CrateVersion → CrateVersion) : Except IndexError Store :=
  match alterList f version (store name) with
  | some recs => .ok (updateStore store name recs)
  | none => .error (.crateNotFound name)

/-- The mutation applied by `yank_record`: set the `yanked` field to `true`. -/
def setYankedTrue (r : CrateVersion) : CrateVersion := { r with yanked := some true }

/-- The mutation applied by `unyank_record`: set the `yanked` field to `false`. -/
def setYankedFalse (r : CrateVersion) : CrateVersion := { r with yanked := some false }

/-- The `Indexer` trait's default `yank_record` (src/index/mod.rs lines
47-49): a call to `alter_record` whose mutation sets `yanked = Some(true)`. -/
def yank_record (store : Store) (name : String) (version : Version) :
    Except IndexError Store :=
  alter_record store name version (fun krate => { krate with yanked := some true })

/-- The `Indexer` trait's default `unyank_record` (src/index/mod.rs lines
51-53): a call to `alter_record` whose mutation sets `yanked = Some(false)`. -/
def unyank_record (store : Store) (name : String) (version : Version) :
    Except IndexError Store :=
  alter_record store name version (fun krate => { krate with yanked := some false })

/-- The command-line backend. Modelled from the spec: `src/index/cli.rs` is
not among the visible sources, so the backend is kept abstract as a bundle of
operations with the signatures of the `Indexer` trait; only the dispatcher's
delegation to it is at issue. -/
structure CommandLineIndex where
  url : Except IndexError String
  refresh : Except IndexError Unit
  commit_and_push : String → Except IndexError Unit
  all_records : String → Except IndexError (List CrateVersion)
  latest_record : String → Except IndexError CrateVersion
  match_record : String → (Version → Bool) → Except IndexError CrateVersion
  add_record : CrateVersion → Except IndexError Unit
  alter_record : String → Version → (CrateVersion → CrateVersion) → Except IndexError Unit
  yank_record : String → Version → Except IndexError Unit
  unyank_record : String → Version → Except IndexError Unit

/-- The `Index` dispatcher enum (src/index/mod.rs lines 18-24): a tagged
choice of backing strategy, currently with the single `CommandLine` variant. -/
inductive Index where
  | commandLine (idx : CommandLineIndex)

/-- Dispatcher `url` (src/index/mod.rs lines 57-61). -/
def Index.url : Index → Except IndexError String
  | .commandLine idx => idx.url

/-- Dispatcher `refresh` (src/index/mod.rs lines 63-67). -/
def Index.refresh : Index → Except IndexError Unit
  | .commandLine idx => idx.refresh

/-- Dispatcher `commit_and_push` (src/index/mod.rs lines 69-73). -/
def Index.commit_and_push : Index → String → Except IndexError Unit
  | .commandLine idx => idx.commit_and_push

/-- Dispatcher `all_records` (src/index/mod.rs lines 75-79). -/
def Index.all_records : Index → String → Except IndexError (List CrateVersion)
  | .commandLine idx => idx.all_records

/-- Dispatcher `latest_record` (src/index/mod.rs lines 81-85). -/
def Index.latest_record : Index → String → Except IndexError CrateVersion
  | .commandLine idx => idx.latest_record

/-- Dispatcher `match_record` (src/index/mod.rs lines 87-91). -/
def Index.match_record : Index → String → (Version → Bool) → Except IndexError CrateVersion
  | .commandLine idx => idx.match_record

/-- Dispatcher `add_record` (src/index/mod.rs lines 93-97). -/
def Index.add_record : Index → CrateVersion → Except IndexError Unit
  | .commandLine idx => idx.add_record

/-- Dispatcher `alter_record` (src/index/mod.rs lines 99-106). -/
def Index.alter_record : Index → String → Version → (CrateVersion → CrateVersion) →
    Except IndexError Unit
  | .commandLine idx => idx.alter_record

/-- Dispatcher `yank_record` (src/index/mod.rs lines 108-112). -/
def Index.yank_record : Index → String → Version → Except IndexError Unit
  | .commandLine idx => idx.yank_record

/-- Dispatcher `unyank_record` (src/index/mod.rs lines 114-118). -/
def Index.unyank_record : Index → String → Version → Except IndexError Unit
  | .commandLine idx => idx.unyank_record

/-- An author of the registry. Modelled from the spec: `db::models::Author`
is not among the visible sources; it is opaque carried data here. -/
structure Author where
  id : Nat
  username : String
deriving DecidableEq

/-- Display form of a pre-release identifier, as the semver crate prints it. -/
def SemverId.display : SemverId → String
  | .num n => toString n
  | .alpha s => s

/-- Display form of a version, as the semver crate prints it (build metadata
omitted, as it is from the model). -/
def Version.display (v : Version) : String :=
  let base := toString v.major ++ "." ++ toString v.minor ++ "." ++ toString v.patch
  match v.pre with
  | [] => base
  | pre => base ++ "-" ++ String.intercalate "." (pre.map SemverId.display)

/-- The `AlexError` enum of `src/error.rs` (lines 49-83): the registry's own
error kinds with their payloads. -/
inductive AlexError where
  | crateNotFound (name : String)
  | crateNotOwned (name : String) (author : Author)
  | versionTooLow (krate : String) (hosted : Version) (published : Version)
  | invalidToken
  | missingQueryParams (missingParams : List String)
deriving DecidableEq

/-- The display message of an `AlexError`, from the `#[error("...")]`
attributes on the enum in `src/error.rs`. -/
def AlexError.message : AlexError → String
  | .crateNotFound name => "no crate named '" ++ name ++ "' found"
  | .crateNotOwned name _ => "you are not an owner of '" ++ name ++ "'"
  | .versionTooLow _ hosted published =>
      "the published version is too low (hosted version is " ++ hosted.display ++
      ", and thus " ++ published.display ++ " <= " ++ hosted.display ++ ")"
  | .invalidToken => "invalid token"
  | .missingQueryParams ps =>
      "missing query parameters: [" ++
      String.intercalate ", " (ps.map (fun p => "\"" ++ p ++ "\"")) ++ "]"

/-- The `AlexError::get_http_status_code` function of `src/error.rs` (lines
87-95), with HTTP status codes as their numeric values. -/
def AlexError.get_http_status_code : AlexError → Nat
  | .crateNotFound _ => 400
  | .crateNotOwned _ _ => 400
  | .versionTooLow _ _ _ => 400
  | .invalidToken => 401
  | .missingQueryParams _ => 400

/-- The registry-wide `Error` enum of `src/error.rs` (lines 23-45). The
underlying foreign errors (IO, JSON, TOML, SQL, semver, hex) are carried as
their opaque detail text. -/
inductive Error where
  | ioError (detail : String)
  | jsonError (detail : String)
  | tomlError (detail : String)
  | sqlError (detail : String)
  | semverError (detail : String)
  | hexError (detail : String)
  | alexError (err : AlexError)
deriving DecidableEq

/-- Whether an `Error` is the `AlexError` variant. -/
def Error.isAlex : Error → Bool
  | .alexError _ => true
  | _ => false

/-- The response body chosen by `impl IntoResponse for Error`
(src/error.rs lines 100-108): the fixed internal-server-error text for every
non-`AlexError` variant, the error's own message for `AlexError`. -/
def Error.message : Error → String
  | .ioError _ => "internal server error"
  | .jsonError _ => "internal server error"
  | .tomlError _ => "internal server error"
  | .sqlError _ => "internal server error"
  | .semverError _ => "internal server error"
  | .hexError _ => "internal server error"
  | .alexError err => err.message

/-- The response status chosen by `impl IntoResponse for Error`
(src/error.rs lines 109-112): the `AlexError`'s own status code, 500
otherwise. -/
def Error.statusCode : Error → Nat
  | .alexError err => err.get_http_status_code
  | _ => 500

/-- The `into_response` conversion of `src/error.rs` (lines 97-117), as the
(status, body) pair handed to `utils::response::error`. -/
def Error.into_response (e : Error) : Nat × String := (e.statusCode, e.message)

/-- Shorthand for a version without pre-release identifiers. -/
def vers (major minor patch : Nat) : Version := ⟨major, minor, patch, []⟩

/-- The spec's resolution example: package `P` at version 1.0.0, yanked. -/
def recP100 : CrateVersion :=
  { name := "P", vers := vers 1 0 0, deps := [], features := [],
    cksum := "c1", yanked := some true }

/-- The spec's resolution example: package `P` at version 1.1.0, not yanked
(the flag left unset, which resolution treats as not-yanked). -/
def recP110 : CrateVersion :=
  { name := "P", vers := vers 1 1 0, deps := [], features := [],
    cksum := "c2", yanked := none }

/-- The spec's resolution example store: package `P` with records 1.0.0
(yanked) and 1.1.0 (not yanked). -/
def storeP : Store := fun n => if n = "P" then [recP100, recP110] else []

/-- Modelled from the spec: the caret requirement `^1.0`, satisfied by the
versions at least 1.0.0 and below 2.0.0. -/
def caret10 : Version → Bool :=
  fun v => decide (Version.le (vers 1 0 0) v) && decide (v.major = 1)

/-- The character of a decimal digit (zero for an out-of-range value). -/
def digitToChar (d : Nat) : Char :=
  if d = 1 then '1' else if d = 2 then '2' else if d = 3 then '3'
  else if d = 4 then '4' else if d = 5 then '5' else if d = 6 then '6'
  else if d = 7 then '7' else if d = 8 then '8' else if d = 9 then '9'
  else '0'

/-- The value of a decimal digit character. -/
def charToDigit (c : Char) : Nat := c.toNat - 48

/-- The little-endian decimal digits of a number, with explicit fuel so that
the recursion is structural; `fuel ≥ n` yields the exact digits. -/
def natDigits (fuel n : Nat) : List Nat :=
  match fuel with
  | 0 => []
  | fuel + 1 => if n = 0 then [] else n % 10 :: natDigits fuel (n / 10)

/-- Encode a number as its little-endian decimal digit characters (empty for
zero). -/
def encodeNat (n : Nat) : List Char := (natDigits n n).map digitToChar

/-- Decode little-endian decimal digit characters back to the number. -/
def decodeNat (cs : List Char) : Nat :=
  (cs.map charToDigit).foldr (fun d acc => d + 10 * acc) 0

/-- The characters the codec reserves as separators: fields, list items,
feature key/value divider, feature value terminator and the record
terminator. -/
def isSepFree (c : Char) : Bool :=
  !(c = '|' || c = ',' || c = ':' || c = '+' || c = '\n')

/-- Whether every character of a string is free of the codec's separators. -/
def validStrB (s : String) : Bool := s.data.all isSepFree

/-- Whether a pre-release identifier only carries separator-free text. -/
def SemverId.validB : SemverId → Bool
  | .num _ => true
  | .alpha s => validStrB s

/-- Whether a record is valid for the codec: every string field (name,
dependency specifiers, feature keys and values, checksum, pre-release text)
is free of the separator characters. Package names, semver identifiers and
hexadecimal checksums always are. -/
def CrateVersion.validB (r : CrateVersion) : Bool :=
  validStrB r.name && r.vers.pre.all SemverId.validB && r.deps.all validStrB &&
    r.features.all (fun kv => validStrB kv.1 && kv.2.all validStrB) &&
    validStrB r.cksum

/-- Split a character list at every occurrence of the separator; a list with
no separator yields itself as the single piece, and each separator opens a
new piece. -/
def splitSep (sep : Char) : List Char → List (List Char)
  | [] => [[]]
  | c :: cs =>
    match splitSep sep cs with
    | [] => [[]]
    | p :: ps => if c = sep then [] :: p :: ps else (c :: p) :: ps

/-- Encode a list of pieces with the separator as a terminator after each
piece (so that the empty list and empty pieces are unambiguous). -/
def encodeListT (sep : Char) (pieces : List (List Char)) : List Char :=
  (pieces.map (fun p => p ++ [sep])).flatten

/-- Decode a terminator-separated list of pieces. -/
def decodeListT (sep : Char) (cs : List Char) : List (List Char) :=
  (splitSep sep cs).dropLast

/-- Encode one pre-release identifier, tagged by its kind. -/
def encodeId : SemverId → List Char
  | .num n => 'n' :: encodeNat n
  | .alpha s => 'a' :: s.data

/-- Decode one pre-release identifier. -/
def decodeId : List Char → Option SemverId
  | 'n' :: rest => some (.num (decodeNat rest))
  | 'a' :: rest => some (.alpha (String.mk rest))
  | _ => none

/-- Encode one feature-map entry as the key, a divider and the terminated
value list. -/
def encodeFeature (kv : String × List String) : List Char :=
  kv.1.data ++ ':' :: encodeListT '+' (kv.2.map String.data)

/-- Decode one feature-map entry. -/
def decodeFeature (cs : List Char) : Option (String × List String) :=
  match splitSep ':' cs with
  | [k, vs] => some (String.mk k, (decodeListT '+' vs).map String.mk)
  | _ => none

/-- Encode the tri-state yank flag as one character: unset, false or true. -/
def encodeYanked : Option Bool → List Char
  | none => ['u']
  | some false => ['f']
  | some true => ['t']

/-- Decode the tri-state yank flag. -/
def decodeYanked : List Char → Option (Option Bool)
  | ['u'] => some none
  | ['f'] => some (some false)
  | ['t'] => some (some true)
  | _ => none

/-- Decode every piece, failing when any piece fails. -/
def decodeAll {α : Type} (f : List Char → Option α) :
    List (List Char) → Option (List α)
  | [] => some []
  | p :: ps =>
    match f p, decodeAll f ps with
    | some a, some revs => some (a :: revs)
    | _, _ => none

/-- Modelled from the spec: the record codec of `src/index/models.rs` is not
among the visible sources; the spec asks for a stable line-oriented textual
form, one self-describing record per line. One record encodes as its nine
fields (name, the three version numbers, the pre-release identifiers, the
dependency specifiers, the feature map, the checksum and the yank flag)
separated by the field separator. -/
def encodeRecord (r : CrateVersion) : List Char :=
  r.name.data ++ '|' ::
  (encodeNat r.vers.major ++ '|' ::
  (encodeNat r.vers.minor ++ '|' ::
  (encodeNat r.vers.patch ++ '|' ::
  (encodeListT ',' (r.vers.pre.map encodeId) ++ '|' ::
  (encodeListT ',' (r.deps.map String.data) ++ '|' ::
  (encodeListT ',' (r.features.map encodeFeature) ++ '|' ::
  (r.cksum.data ++ '|' ::
  encodeYanked r.yanked)))))))

/-- Decode one record line; `none` when the line does not carry exactly the
record schema. -/
def decodeRecord (cs : List Char) : Option CrateVersion :=
  match splitSep '|' cs with
  | [nm, ma, mi, pa, pre, deps, feats, ck, yk] =>
    match decodeAll decodeId (decodeListT ',' pre),
          decodeAll decodeFeature (decodeListT ',' feats),
          decodeYanked yk with
    | some preIds, some featList, some yankedV =>
      some { name := String.mk nm,
             vers := { major := decodeNat ma, minor := decodeNat mi,
                       patch := decodeNat pa, pre := preIds },
             deps := (decodeListT ',' deps).map String.mk,
             features := featList,
             cksum := String.mk ck,
             yanked := yankedV }
    | _, _, _ => none
  | _ => none

/-- Encode a record list as newline-terminated record lines. -/
def encodeRecords (rs : List CrateVersion) : List Char :=
  encodeListT '\n' (rs.map encodeRecord)

/-- Decode newline-terminated record lines. -/
def decodeRecords (cs : List Char) : Option (List CrateVersion) :=
  decodeAll decodeRecord (decodeListT '\n' cs)

/-- A single-record package used as a concrete input: `Q` at 1.0.0. -/
def recQ : CrateVersion :=
  { name := "Q", vers := vers 1 0 0, deps := [], features := [],
    cksum := "c3", yanked := none }

/-- A store holding only package `Q` with its single record. -/
def storeQ : Store := fun n => if n = "Q" then [recQ] else []

/-- A mutation that rewrites the version field of a record to 2.0.0. -/
def bumpVers (r : CrateVersion) : CrateVersion := { r with vers := vers 2 0 0 }

/-- The store produced by yanking `P` 1.0.0 in the example store. -/
def storePYanked : Store :=
  updateStore storeP "P" [{ recP100 with yanked := some true }, recP110]

/-- The store produced by then unyanking `P` 1.0.0 again. -/
def storePUnyanked : Store :=
  updateStore storePYanked "P" [{ recP100 with yanked := some false }, recP110]

/-- A concrete record exercising every field of the codec. -/
def recW : CrateVersion :=
  { name := "w", vers := ⟨1, 2, 3, [.num 4, .alpha "rc"]⟩, deps := ["d1"],
    features := [("f", ["a", "b"]), ("g", [])], cksum := "ab01",
    yanked := some true }

theorem vle_refl (v : Version) : Version.le v v := le_refl v.key

theorem vle_of_lt {v w : Version} (h : Version.lt v w) : Version.le v w :=
  le_of_lt h

theorem vle_of_not_lt {v w : Version} (h : ¬ Version.lt v w) : Version.le w v :=
  le_of_not_lt h

theorem vle_trans {u v w : Version} (h1 : Version.le u v) (h2 : Version.le v w) :
    Version.le u w :=
  le_trans h1 h2

theorem maxStep_eq_or (a b : CrateVersion) : maxStep a b = a ∨ maxStep a b = b := by
  unfold maxStep; split
  · exact Or.inr rfl
  · exact Or.inl rfl

theorem le_maxStep_left (a b : CrateVersion) :
    Version.le a.vers (maxStep a b).vers := by
  unfold maxStep; split
  · exact vle_of_lt ‹_›
  · exact vle_refl _

theorem le_maxStep_right (a b : CrateVersion) :
    Version.le b.vers (maxStep a b).vers := by
  unfold maxStep; split
  · exact vle_refl _
  · exact vle_of_not_lt ‹_›

theorem foldl_maxStep_mem (r : CrateVersion) (rs : List CrateVersion) :
    rs.foldl maxStep r ∈ r :: rs := by
  induction rs generalizing r with
  | nil => exact List.mem_cons_self r []
  | cons b bs ih =>
    rw [List.foldl_cons]
    rcases List.mem_cons.mp (ih (maxStep r b)) with h | h
    · rw [h]
      rcases maxStep_eq_or r b with h2 | h2 <;> rw [h2]
      · exact List.mem_cons_self r (b :: bs)
      · exact List.mem_cons_of_mem r (List.mem_cons_self b bs)
    · exact List.mem_cons_of_mem r (List.mem_cons_of_mem b h)

theorem foldl_maxStep_ge (r : CrateVersion) (rs : List CrateVersion) :
    ∀ x ∈ r :: rs, Version.le x.vers (rs.foldl maxStep r).vers := by
  induction rs generalizing r with
  | nil =>
    intro x hx
    rcases List.mem_cons.mp hx with h | h
    · rw [h]; exact vle_refl _
    · cases h
  | cons b bs ih =>
    intro x hx
    rw [List.foldl_cons]
    have hstep : Version.le (maxStep r b).vers (bs.foldl maxStep (maxStep r b)).vers :=
      ih (maxStep r b) (maxStep r b) (List.mem_cons_self _ bs)
    rcases List.mem_cons.mp hx with h | h
    · rw [h]; exact vle_trans (le_maxStep_left r b) hstep
    · rcases List.mem_cons.mp h with h2 | h2
      · rw [h2]; exact vle_trans (le_maxStep_right r b) hstep
      · exact ih (maxStep r b) x (List.mem_cons_of_mem _ h2)

theorem maxByVers_spec {recs : List CrateVersion} (h : recs ≠ []) :
    ∃ r, maxByVers recs = some r ∧ r ∈ recs ∧
      ∀ x ∈ recs, Version.le x.vers r.vers := by
  cases recs with
  | nil => exact absurd rfl h
  | cons a as => exact ⟨_, rfl, foldl_maxStep_mem a as, foldl_maxStep_ge a as⟩

theorem alterList_eq_none_iff (f : CrateVersion → CrateVersion) (ver : Version)
    (l : List CrateVersion) :
    alterList f ver l = none ↔ ∀ r ∈ l, r.vers ≠ ver := by
  induction l with
  | nil => simp [alterList]
  | cons r rs ih =>
    by_cases hv : r.vers = ver
    · simp [alterList, hv]
    · constructor
      · intro h x hx
        rw [alterList, if_neg hv] at h
        rcases List.mem_cons.mp hx with h2 | h2
        · rw [h2]; exact hv
        · cases halt : alterList f ver rs with
          | none => exact ih.mp halt x h2
          | some rs2 => rw [halt] at h; cases h
      · intro hall
        rw [alterList, if_neg hv]
        have h2 : alterList f ver rs = none :=
          ih.mpr (fun x hx => hall x (List.mem_cons_of_mem r hx))
        rw [h2]

theorem alterList_some_spec (f : CrateVersion → CrateVersion) (ver : Version) :
    ∀ (l l2 : List CrateVersion), alterList f ver l = some l2 →
      ∃ (i : Nat) (r0 : CrateVersion), l[i]? = some r0 ∧ r0.vers = ver ∧
        l2[i]? = some (f r0) ∧ l2.length = l.length ∧
        (∀ j : Nat, j ≠ i → l2[j]? = l[j]?) ∧
        (∀ k : Nat, k < i → ∀ rk : CrateVersion, l[k]? = some rk → rk.vers ≠ ver) := by
  intro l
  induction l with
  | nil => intro l2 h; cases h
  | cons r rs ih =>
    intro l2 h
    by_cases hv : r.vers = ver
    · rw [alterList, if_pos hv] at h
      cases h
      refine ⟨0, r, by simp, hv, by simp, by simp, ?_, ?_⟩
      · intro j hj
        cases j with
        | zero => exact absurd rfl hj
        | succ j2 => simp
      · intro k hk; cases hk
    · rw [alterList, if_neg hv] at h
      cases halt : alterList f ver rs with
      | none => rw [halt] at h; cases h
      | some rs2 =>
        rw [halt] at h
        cases h
        obtain ⟨i, r0, hget, hvr, hget2, hlen, hframe, hfirst⟩ := ih rs2 halt
        refine ⟨i + 1, r0, by simpa using hget, hvr, by simpa using hget2,
          by simp [hlen], ?_, ?_⟩
        · intro j hj
          cases j with
          | zero => simp
          | succ j2 =>
            have : j2 ≠ i := fun hc => hj (by rw [hc])
            simpa using hframe j2 this
        · intro k hk rk hgetk
          cases k with
          | zero =>
            simp only [List.getElem?_cons_zero, Option.some.injEq] at hgetk
            rw [← hgetk]; exact hv
          | succ k2 =>
            have hk2 : k2 < i := Nat.lt_of_succ_lt_succ hk
            exact hfirst k2 hk2 rk (by simpa using hgetk)

theorem alterList_isSome_of_mem {ver : Version} {l : List CrateVersion}
    (f : CrateVersion → CrateVersion) {r : CrateVersion} (hr : r ∈ l)
    (hv : r.vers = ver) : ∃ l2, alterList f ver l = some l2 := by
  cases halt : alterList f ver l with
  | none =>
    exact absurd hv ((alterList_eq_none_iff f ver l).mp halt r hr)
  | some l2 => exact ⟨l2, rfl⟩

theorem storeRecs_eq_nil_of_nonYanked {store : Store} {name : String}
    (h : store name = []) : nonYankedOf store name = [] := by
  simp [nonYankedOf, h]

/-- Claim C1: `latest_record` returns the record with the highest semantic
version among the non-yanked records when at least one exists; when every
record is yanked it returns the record with the highest version among all
records; and when the package has no records at all it fails with the
crate-not-found error. -/
theorem claim1_latest_record (store : Store) (name : String) :
    (store name = [] → latest_record store name = .error (.crateNotFound name)) ∧
    (nonYankedOf store name ≠ [] →
      ∃ r, latest_record store name = .ok r ∧ r ∈ nonYankedOf store name ∧
        ∀ x ∈ nonYankedOf store name, Version.le x.vers r.vers) ∧
    (store name ≠ [] → nonYankedOf store name = [] →
      ∃ r, latest_record store name = .ok r ∧ r ∈ store name ∧
        ∀ x ∈ store name, Version.le x.vers r.vers) := by
  refine ⟨?_, ?_, ?_⟩
  · intro h
    have h2 : nonYankedOf store name = [] := storeRecs_eq_nil_of_nonYanked h
    simp [latest_record, h2, h, maxByVers]
  · intro h
    have hne : (nonYankedOf store name).isEmpty = false := by
      cases hh : nonYankedOf store name with
      | nil => exact absurd hh h
      | cons a as => rfl
    obtain ⟨r, hmax, hmem, hge⟩ := maxByVers_spec h
    exact ⟨r, by simp [latest_record, hne, hmax], hmem, hge⟩
  · intro hrecs hnon
    have hemp : (nonYankedOf store name).isEmpty = true := by simp [hnon]
    obtain ⟨r, hmax, hmem, hge⟩ := maxByVers_spec hrecs
    exact ⟨r, by simp [latest_record, hemp, hmax], hmem, hge⟩

/-- Witness for claim C1, at the spec's example store: the non-yanked list of
`P` is non-empty, and `latest_record` returns its maximum. -/
theorem claim1_witness :
    ∃ r, latest_record storeP "P" = .ok r ∧ r ∈ nonYankedOf storeP "P" ∧
      ∀ x ∈ nonYankedOf storeP "P", Version.le x.vers r.vers :=
  (claim1_latest_record storeP "P").2.1 (by decide)

/-- Claim C2: `match_record` returns the record with the highest semantic
version among the non-yanked records satisfying the requirement, fails with a
crate-not-found error when no non-yanked record satisfies it, and on the
spec's example (1.0.0 yanked, 1.1.0 not yanked, requirement `^1.0`) returns
the 1.1.0 record. -/
theorem claim2_match_record (store : Store) (name : String) (req : Version → Bool) :
    (reqCandidatesOf store name req ≠ [] →
      ∃ r, match_record store name req = .ok r ∧
        r ∈ reqCandidatesOf store name req ∧
        ∀ x ∈ reqCandidatesOf store name req, Version.le x.vers r.vers) ∧
    (reqCandidatesOf store name req = [] →
      match_record store name req = .error (.crateNotFound name)) ∧
    match_record storeP "P" caret10 = .ok recP110 := by
  refine ⟨?_, ?_, rfl⟩
  · intro h
    obtain ⟨r, hmax, hmem, hge⟩ := maxByVers_spec h
    exact ⟨r, by simp [match_record, hmax], hmem, hge⟩
  · intro h
    simp [match_record, h, maxByVers]

/-- Witness for claim C2, at the spec's example store with the `^1.0`
requirement. -/
theorem claim2_witness :
    ∃ r, match_record storeP "P" caret10 = .ok r ∧
      r ∈ reqCandidatesOf storeP "P" caret10 ∧
      ∀ x ∈ reqCandidatesOf storeP "P" caret10, Version.le x.vers r.vers :=
  (claim2_match_record storeP "P" caret10).1 (by decide)

/-- Claim C3: `add_record` on a record whose `(name, version)` is already
present in its package's stored list fails with the duplicate-version error
and produces no new store (the stored list is unchanged by the failed call). -/
theorem claim3_add_record_duplicate (store : Store) (record : CrateVersion)
    (h : (store record.name).any (fun r => r.vers == record.vers) = true) :
    add_record store record = .error (.duplicateVersion record.name record.vers) ∧
    ∀ s : Store, add_record store record ≠ .ok s := by
  have he : add_record store record =
      .error (.duplicateVersion record.name record.vers) := by
    simp [add_record, h]
  exact ⟨he, fun s hs => by rw [he] at hs; cases hs⟩

/-- Witness for claim C3: re-adding the already-present `P` 1.0.0 fails with
the duplicate-version error. -/
theorem claim3_witness :
    add_record storeP recP100 = .error (.duplicateVersion "P" (vers 1 0 0)) ∧
    ∀ s : Store, add_record storeP recP100 ≠ .ok s :=
  claim3_add_record_duplicate storeP recP100 (by decide)

/-- Claim C4: the trait's default `yank_record` is exactly `alter_record`
with the mutation that sets the `yanked` field to `true`, and `unyank_record`
is exactly `alter_record` with the mutation that sets it to `false`, each
returning whatever `alter_record` returns. -/
theorem claim4_yank_unyank_wrappers (store : Store) (name : String)
    (version : Version) :
    yank_record store name version = alter_record store name version setYankedTrue ∧
    unyank_record store name version = alter_record store name version setYankedFalse :=
  ⟨rfl, rfl⟩

theorem alter_record_ok_elim {store : Store} {name : String} {ver : Version}
    {f : CrateVersion → CrateVersion} {s : Store}
    (h : alter_record store name ver f = .ok s) :
    ∃ l2, alterList f ver (store name) = some l2 ∧ s = updateStore store name l2 := by
  cases halt : alterList f ver (store name) with
  | none => rw [alter_record, halt] at h; cases h
  | some l2 =>
    rw [alter_record, halt] at h
    cases h
    exact ⟨l2, rfl, rfl⟩

theorem alter_record_ok_intro {store : Store} {name : String} {ver : Version}
    (f : CrateVersion → CrateVersion) {r : CrateVersion} (hr : r ∈ store name)
    (hv : r.vers = ver) :
    ∃ l2, alterList f ver (store name) = some l2 ∧
      alter_record store name ver f = .ok (updateStore store name l2) := by
  obtain ⟨l2, hl2⟩ := alterList_isSome_of_mem f hr hv
  exact ⟨l2, hl2, by rw [alter_record, hl2]⟩

theorem updateStore_self (store : Store) (name : String)
    (recs : List CrateVersion) : updateStore store name recs name = recs := by
  simp [updateStore]

theorem updateStore_other (store : Store) (name : String)
    (recs : List CrateVersion) {n : String} (h : n ≠ name) :
    updateStore store name recs n = store n := by
  simp [updateStore, h]

theorem mem_of_getElemQ {α : Type} {l : List α} {i : Nat} {a : α}
    (h : l[i]? = some a) : a ∈ l := by
  induction l generalizing i with
  | nil => cases h
  | cons b bs ih =>
    cases i with
    | zero =>
      simp only [List.getElem?_cons_zero, Option.some.injEq] at h
      rw [h]
      exact List.mem_cons_self a bs
    | succ i2 =>
      simp only [List.getElem?_cons_succ] at h
      exact List.mem_cons_of_mem b (ih h)

theorem alterList_index_unique {ver : Version}
    {l : List CrateVersion} {i i2 : Nat} {r0 r2 : CrateVersion}
    (hget : l[i]? = some r0) (hv : r0.vers = ver)
    (hfirst : ∀ k : Nat, k < i → ∀ rk : CrateVersion, l[k]? = some rk → rk.vers ≠ ver)
    (hget2 : l[i2]? = some r2) (hv2 : r2.vers = ver)
    (hfirst2 : ∀ k : Nat, k < i2 → ∀ rk : CrateVersion, l[k]? = some rk → rk.vers ≠ ver) :
    i = i2 ∧ r0 = r2 := by
  rcases Nat.lt_trichotomy i2 i with h | h | h
  · exact absurd hv2 (hfirst i2 h r2 hget2)
  · subst h
    rw [hget] at hget2
    exact ⟨rfl, Option.some.inj hget2⟩
  · exact absurd hv (hfirst2 i h r0 hget)

/-- Claim C5: for a `(name, version)` present in the index, `yank_record`
then `unyank_record` succeed and leave that record observably unyanked, with
every field other than the yanked flag unchanged, every other record of the
list unchanged and every other package unchanged. The matched record is
located as the code does, by the first version match in the package's list. -/
theorem claim5_yank_then_unyank (store : Store) (name : String) (ver : Version)
    (i : Nat) (r0 : CrateVersion) (hget : (store name)[i]? = some r0)
    (hv : r0.vers = ver)
    (hfirst : ∀ k : Nat, k < i → ∀ rk : CrateVersion,
      (store name)[k]? = some rk → rk.vers ≠ ver) :
    ∃ s1 s2 : Store, yank_record store name ver = .ok s1 ∧
      unyank_record s1 name ver = .ok s2 ∧
      ∃ r2 : CrateVersion, (s2 name)[i]? = some r2 ∧ r2.isYanked = false ∧
        r2.name = r0.name ∧ r2.vers = r0.vers ∧ r2.deps = r0.deps ∧
        r2.features = r0.features ∧ r2.cksum = r0.cksum ∧
        (∀ j : Nat, j ≠ i → (s2 name)[j]? = (store name)[j]?) ∧
        (∀ n : String, n ≠ name → s2 n = store n) := by
  have hr0mem : r0 ∈ store name := mem_of_getElemQ hget
  obtain ⟨l1, hl1, hok1⟩ :=
    alter_record_ok_intro (fun krate => { krate with yanked := some true })
      hr0mem hv
  obtain ⟨i1, r1, hget1, hv1, hget1b, hlen1, hframe1, hfirst1⟩ :=
    alterList_some_spec _ ver (store name) l1 hl1
  obtain ⟨hi1, hr1⟩ := alterList_index_unique hget hv hfirst hget1 hv1 hfirst1
  subst hi1; subst hr1
  set s1 : Store := updateStore store name l1 with hs1
  have hs1name : s1 name = l1 := updateStore_self store name l1
  have hget1c : (s1 name)[i]? = some { r0 with yanked := some true } := by
    rw [hs1name]; exact hget1b
  have hframe1c : ∀ j : Nat, j ≠ i → (s1 name)[j]? = (store name)[j]? := by
    intro j hj; rw [hs1name]; exact hframe1 j hj
  have hfirst1c : ∀ k : Nat, k < i → ∀ rk : CrateVersion,
      (s1 name)[k]? = some rk → rk.vers ≠ ver := by
    intro k hk rk hgetk
    exact hfirst k hk rk (by rw [← hframe1c k (Nat.ne_of_lt hk)]; exact hgetk)
  have hmem1 : ({ r0 with yanked := some true } : CrateVersion) ∈ s1 name :=
    mem_of_getElemQ hget1c
  obtain ⟨l2, hl2, hok2⟩ :=
    alter_record_ok_intro (fun krate => { krate with yanked := some false })
      hmem1 hv
  obtain ⟨i2, r2a, hget2, hv2, hget2b, hlen2, hframe2, hfirst2⟩ :=
    alterList_some_spec _ ver (s1 name) l2 hl2
  obtain ⟨hi2, hr2⟩ := alterList_index_unique hget1c hv hfirst1c hget2 hv2 hfirst2
  subst hi2; subst hr2
  set s2 : Store := updateStore s1 name l2 with hs2
  have hs2name : s2 name = l2 := updateStore_self s1 name l2
  refine ⟨s1, s2, hok1, hok2, { r0 with yanked := some false }, ?_, rfl, rfl, rfl,
    rfl, rfl, rfl, ?_, ?_⟩
  · rw [hs2name]; exact hget2b
  · intro j hj
    rw [hs2name, hframe2 j hj]
    exact hframe1c j hj
  · intro n hn
    rw [hs2, updateStore_other s1 name l2 hn, hs1,
      updateStore_other store name l1 hn]

/-- Witness for claim C5, yanking and unyanking `P` 1.0.0 in the spec's
example store (the record sits at index 0, so the first-match side condition
is vacuous). -/
theorem claim5_witness :
    ∃ s1 s2 : Store, yank_record storeP "P" (vers 1 0 0) = .ok s1 ∧
      unyank_record s1 "P" (vers 1 0 0) = .ok s2 ∧
      ∃ r2 : CrateVersion, (s2 "P")[0]? = some r2 ∧ r2.isYanked = false ∧
        r2.name = recP100.name ∧ r2.vers = recP100.vers ∧ r2.deps = recP100.deps ∧
        r2.features = recP100.features ∧ r2.cksum = recP100.cksum ∧
        (∀ j : Nat, j ≠ 0 → (s2 "P")[j]? = (storeP "P")[j]?) ∧
        (∀ n : String, n ≠ "P" → s2 n = storeP n) :=
  claim5_yank_then_unyank storeP "P" (vers 1 0 0) 0 recP100 (by decide) rfl
    (fun k hk rk _ => absurd hk (Nat.not_lt_zero k))

/-- Counterexample to claim C6 as stated: the mutation function is arbitrary,
so a mutation that rewrites the version field changes the set of
`(name, version)` identity pairs of the stored list. Here `alter_record` on
package `Q` at 1.0.0 with a mutation bumping the version to 2.0.0 succeeds
and changes the pair list from `[("Q", 1.0.0)]` to `[("Q", 2.0.0)]`. -/
theorem claim6_counterexample :
    ∃ s : Store, alter_record storeQ "Q" (vers 1 0 0) bumpVers = .ok s ∧
      (s "Q").map (fun r => (r.name, r.vers)) ≠
        (storeQ "Q").map (fun r => (r.name, r.vers)) :=
  ⟨updateStore storeQ "Q" [bumpVers recQ], rfl, by decide⟩

/-- Claim C6 (amended): `alter_record` fails with the not-found error when no
record matches; on success it changes at most the unique matching record,
leaves every other record and every other package unchanged, and preserves
the length of the list; and whenever the mutation function preserves the
`name` and `vers` fields (as the yank mutations do), the list of
`(name, version)` identity pairs is unchanged. -/
theorem claim6_alter_record_frame (store : Store) (name : String) (ver : Version)
    (f : CrateVersion → CrateVersion) :
    ((∀ r ∈ store name, r.vers ≠ ver) →
      alter_record store name ver f = .error (.crateNotFound name)) ∧
    (∀ s : Store, alter_record store name ver f = .ok s →
      (∀ n : String, n ≠ name → s n = store n) ∧
      (s name).length = (store name).length ∧
      ∃ (i : Nat) (r0 : CrateVersion), (store name)[i]? = some r0 ∧
        r0.vers = ver ∧ (s name)[i]? = some (f r0) ∧
        (∀ j : Nat, j ≠ i → (s name)[j]? = (store name)[j]?)) ∧
    ((∀ r : CrateVersion, (f r).name = r.name ∧ (f r).vers = r.vers) →
      ∀ s : Store, alter_record store name ver f = .ok s →
        (s name).map (fun r => (r.name, r.vers)) =
          (store name).map (fun r => (r.name, r.vers))) := by
  have hok : ∀ s : Store, alter_record store name ver f = .ok s →
      (∀ n : String, n ≠ name → s n = store n) ∧
      (s name).length = (store name).length ∧
      ∃ (i : Nat) (r0 : CrateVersion), (store name)[i]? = some r0 ∧
        r0.vers = ver ∧ (s name)[i]? = some (f r0) ∧
        (∀ j : Nat, j ≠ i → (s name)[j]? = (store name)[j]?) := by
    intro s hs
    obtain ⟨l2, hl2, hsdef⟩ := alter_record_ok_elim hs
    subst hsdef
    obtain ⟨i, r0, hget, hv, hget2, hlen, hframe, _⟩ :=
      alterList_some_spec f ver (store name) l2 hl2
    have hname : updateStore store name l2 name = l2 := updateStore_self store name l2
    refine ⟨fun n hn => updateStore_other store name l2 hn, by rw [hname]; exact hlen,
      i, r0, hget, hv, by rw [hname]; exact hget2, fun j hj => by rw [hname]; exact hframe j hj⟩
  refine ⟨?_, hok, ?_⟩
  · intro hall
    rw [alter_record, (alterList_eq_none_iff f ver (store name)).mpr hall]
  · intro hpres s hs
    obtain ⟨_, hlen, i, r0, hget, _, hget2, hframe⟩ := hok s hs
    apply List.ext_getElem?
    intro n
    rw [List.getElem?_map, List.getElem?_map]
    by_cases hn : n = i
    · subst hn
      rw [hget, hget2]
      simp only [Option.map_some']
      rw [(hpres r0).1, (hpres r0).2]
    · rw [hframe n hn]

/-- Witness for claim C6 (amended), applying the yank mutation to `Q` 1.0.0:
the identity-pair list is unchanged. -/
theorem claim6_witness :
    ((updateStore storeQ "Q" [setYankedTrue recQ]) "Q").map (fun r => (r.name, r.vers)) =
      (storeQ "Q").map (fun r => (r.name, r.vers)) :=
  (claim6_alter_record_frame storeQ "Q" (vers 1 0 0) setYankedTrue).2.2
    (fun _ => ⟨rfl, rfl⟩) _ rfl

/-- Claim C8: every operation of the `Indexer` interface called on an `Index`
dispatcher value wrapping a concrete backend returns exactly what the same
operation returns on the backend directly — the dispatcher is pure
delegation. -/
theorem claim8_dispatcher_delegates (idx : CommandLineIndex) :
    (Index.commandLine idx).url = idx.url ∧
    (Index.commandLine idx).refresh = idx.refresh ∧
    (∀ msg : String,
      (Index.commandLine idx).commit_and_push msg = idx.commit_and_push msg) ∧
    (∀ name : String,
      (Index.commandLine idx).all_records name = idx.all_records name) ∧
    (∀ name : String,
      (Index.commandLine idx).latest_record name = idx.latest_record name) ∧
    (∀ (name : String) (req : Version → Bool),
      (Index.commandLine idx).match_record name req = idx.match_record name req) ∧
    (∀ record : CrateVersion,
      (Index.commandLine idx).add_record record = idx.add_record record) ∧
    (∀ (name : String) (ver : Version) (f : CrateVersion → CrateVersion),
      (Index.commandLine idx).alter_record name ver f = idx.alter_record name ver f) ∧
    (∀ (name : String) (ver : Version),
      (Index.commandLine idx).yank_record name ver = idx.yank_record name ver) ∧
    (∀ (name : String) (ver : Version),
      (Index.commandLine idx).unyank_record name ver = idx.unyank_record name ver) :=
  ⟨rfl, rfl, fun _ => rfl, fun _ => rfl, fun _ => rfl, fun _ _ => rfl, fun _ => rfl,
   fun _ _ _ => rfl, fun _ _ => rfl, fun _ _ => rfl⟩

/-- Claim C9: after a successful `yank_record` the matched record's `yanked`
field holds exactly the explicit value `some true` (not the unset `none`),
and after a successful `unyank_record` it holds exactly `some false`; so a
yank followed by an unyank of a record whose flag was unset leaves the
explicit `some false`, not the unset state. -/
theorem claim9_explicit_flags (store : Store) (name : String) (ver : Version)
    (s1 s2 : Store) (h1 : yank_record store name ver = .ok s1)
    (h2 : unyank_record s1 name ver = .ok s2) :
    (∃ (i : Nat) (r0 : CrateVersion), (store name)[i]? = some r0 ∧ r0.vers = ver ∧
      (s1 name)[i]? = some { r0 with yanked := some true }) ∧
    (∃ (j : Nat) (r1 : CrateVersion), (s1 name)[j]? = some r1 ∧ r1.vers = ver ∧
      (s2 name)[j]? = some { r1 with yanked := some false }) := by
  constructor
  · obtain ⟨l1, hl1, hsdef⟩ := alter_record_ok_elim h1
    subst hsdef
    obtain ⟨i, r0, hget, hv, hget2, _, _, _⟩ :=
      alterList_some_spec _ ver (store name) l1 hl1
    exact ⟨i, r0, hget, hv, by rw [updateStore_self store name l1]; exact hget2⟩
  · obtain ⟨l2, hl2, hsdef⟩ := alter_record_ok_elim h2
    subst hsdef
    obtain ⟨j, r1, hget, hv, hget2, _, _, _⟩ :=
      alterList_some_spec _ ver (s1 name) l2 hl2
    exact ⟨j, r1, hget, hv, by rw [updateStore_self s1 name l2]; exact hget2⟩

/-- Witness for claim C9: yanking then unyanking `P` 1.0.0 — whose flag
starts explicitly `some true` in the example, but the theorem applies to any
starting flag — produces the explicit flags at each step. -/
theorem claim9_witness :
    (∃ (i : Nat) (r0 : CrateVersion), (storeP "P")[i]? = some r0 ∧
      r0.vers = vers 1 0 0 ∧
      (storePYanked "P")[i]? = some { r0 with yanked := some true }) ∧
    (∃ (j : Nat) (r1 : CrateVersion), (storePYanked "P")[j]? = some r1 ∧
      r1.vers = vers 1 0 0 ∧
      (storePUnyanked "P")[j]? = some { r1 with yanked := some false }) :=
  claim9_explicit_flags storeP "P" (vers 1 0 0) storePYanked storePUnyanked rfl rfl

/-- Claim C10: every non-`AlexError` error value converts to the HTTP
response with status 500 and the fixed body, identically for any two such
values, with no detail of the underlying error observable; only `AlexError`
values produce a message derived from the error, with status 401 for
`InvalidToken` and 400 for every other `AlexError` variant. -/
theorem claim10_error_responses :
    (∀ e : Error, e.isAlex = false →
      e.into_response = (500, "internal server error")) ∧
    (∀ e1 e2 : Error, e1.isAlex = false → e2.isAlex = false →
      e1.into_response = e2.into_response) ∧
    (∀ a : AlexError,
      (Error.alexError a).into_response = (a.get_http_status_code, a.message)) ∧
    AlexError.invalidToken.get_http_status_code = 401 ∧
    (∀ a : AlexError, a ≠ .invalidToken → a.get_http_status_code = 400) := by
  have hmain : ∀ e : Error, e.isAlex = false →
      e.into_response = (500, "internal server error") := by
    intro e h
    cases e <;> first | rfl | exact absurd h (by simp [Error.isAlex])
  refine ⟨hmain, fun e1 e2 h1 h2 => by rw [hmain e1 h1, hmain e2 h2],
    fun a => rfl, rfl, ?_⟩
  intro a h
  cases a <;> first | rfl | exact absurd rfl h

/-- Witness for claim C10: an IO error renders as the constant 500 response,
two different non-`AlexError` errors render identically, and a non-token
`AlexError` carries status 400. -/
theorem claim10_witness :
    (Error.ioError "disk failure").into_response = (500, "internal server error") ∧
    (Error.sqlError "bad query").into_response =
      (Error.hexError "odd length").into_response ∧
    (AlexError.crateNotFound "foo").get_http_status_code = 400 :=
  ⟨claim10_error_responses.1 _ rfl, claim10_error_responses.2.1 _ _ rfl rfl,
   claim10_error_responses.2.2.2.2 _ (by decide)⟩

theorem sepFree_digitToChar (d : Nat) : isSepFree (digitToChar d) = true := by
  unfold digitToChar
  repeat' split
  all_goals decide

theorem charToDigit_digitToChar {d : Nat} (h : d < 10) :
    charToDigit (digitToChar d) = d := by
  interval_cases d <;> decide

theorem sepFree_spec {c : Char} (h : isSepFree c = true) :
    c ≠ '|' ∧ c ≠ ',' ∧ c ≠ ':' ∧ c ≠ '+' ∧ c ≠ '\n' := by
  simp only [isSepFree, Bool.not_eq_true', Bool.or_eq_false_iff,
    decide_eq_false_iff_not] at h
  exact ⟨h.1.1.1.1, h.1.1.1.2, h.1.1.2, h.1.2, h.2⟩

theorem not_mem_of_all_sepFree {l : List Char} (h : l.all isSepFree = true)
    {d : Char} (hd : isSepFree d = false) : d ∉ l := by
  intro hmem
  rw [List.all_eq_true] at h
  rw [h d hmem] at hd
  cases hd

theorem encodeNat_all_sepFree (n : Nat) : (encodeNat n).all isSepFree = true := by
  rw [encodeNat, List.all_eq_true]
  intro c hc
  rw [List.mem_map] at hc
  obtain ⟨d, _, rfl⟩ := hc
  exact sepFree_digitToChar d

theorem natDigits_lt_ten (fuel : Nat) : ∀ (n : Nat), ∀ d ∈ natDigits fuel n, d < 10 := by
  induction fuel with
  | zero => intro n d hd; cases hd
  | succ fuel2 ih =>
    intro n d hd
    rw [natDigits] at hd
    by_cases h0 : n = 0
    · rw [if_pos h0] at hd; cases hd
    · rw [if_neg h0] at hd
      rcases List.mem_cons.mp hd with h | h
      · rw [h]; exact Nat.mod_lt n (by norm_num)
      · exact ih (n / 10) d h

theorem foldr_natDigits (fuel : Nat) : ∀ (n : Nat), n ≤ fuel →
    (natDigits fuel n).foldr (fun d acc => d + 10 * acc) 0 = n := by
  induction fuel with
  | zero =>
    intro n h
    have h0 : n = 0 := Nat.le_zero.mp h
    rw [h0]; rfl
  | succ fuel2 ih =>
    intro n h
    rw [natDigits]
    by_cases h0 : n = 0
    · rw [if_pos h0, h0]; rfl
    · rw [if_neg h0]
      rw [List.foldr_cons]
      have hlt : n / 10 < n := Nat.div_lt_self (Nat.pos_of_ne_zero h0) (by norm_num)
      have hdiv : n / 10 ≤ fuel2 := by omega
      rw [ih (n / 10) hdiv]
      exact Nat.mod_add_div n 10

theorem decodeNat_encodeNat (n : Nat) : decodeNat (encodeNat n) = n := by
  rw [decodeNat, encodeNat, List.map_map]
  have hcong : (natDigits n n).map (charToDigit ∘ digitToChar) = natDigits n n := by
    have h2 : ∀ d ∈ natDigits n n, (charToDigit ∘ digitToChar) d = id d :=
      fun d hd => charToDigit_digitToChar (natDigits_lt_ten n n d hd)
    rw [List.map_congr_left h2, List.map_id]
  rw [hcong]
  exact foldr_natDigits n n (Nat.le_refl n)

theorem splitSep_cons (sep c : Char) (cs : List Char) :
    splitSep sep (c :: cs) =
      match splitSep sep cs with
      | [] => [[]]
      | p :: ps => if c = sep then [] :: p :: ps else (c :: p) :: ps := rfl

theorem splitSep_ne_nil (sep : Char) (cs : List Char) : splitSep sep cs ≠ [] := by
  induction cs with
  | nil => simp [splitSep]
  | cons c cs2 ih =>
    rw [splitSep_cons]
    cases hsp : splitSep sep cs2 with
    | nil => simp
    | cons p ps =>
      by_cases hc : c = sep
      · simp [hc]
      · simp [hc]

theorem splitSep_sepFreeOnly {sep : Char} {p : List Char} (h : sep ∉ p) :
    splitSep sep p = [p] := by
  induction p with
  | nil => rfl
  | cons c p2 ih =>
    have hc : c ≠ sep := fun hcs => h (hcs ▸ List.mem_cons_self c p2)
    have h2 : sep ∉ p2 := fun hm => h (List.mem_cons_of_mem c hm)
    rw [splitSep_cons, ih h2]
    simp [hc]

theorem splitSep_append {sep : Char} {p : List Char} (h : sep ∉ p)
    (rest : List Char) :
    splitSep sep (p ++ sep :: rest) = p :: splitSep sep rest := by
  induction p with
  | nil =>
    rw [List.nil_append, splitSep_cons]
    cases hsp : splitSep sep rest with
    | nil => exact absurd hsp (splitSep_ne_nil sep rest)
    | cons q qs => simp
  | cons c p2 ih =>
    have hc : c ≠ sep := fun hcs => h (hcs ▸ List.mem_cons_self c p2)
    have h2 : sep ∉ p2 := fun hm => h (List.mem_cons_of_mem c hm)
    have hshape : (c :: p2) ++ sep :: rest = c :: (p2 ++ sep :: rest) := rfl
    rw [hshape, splitSep_cons, ih h2]
    simp [hc]

theorem splitSep_encodeListT {sep : Char} {pieces : List (List Char)}
    (h : ∀ p ∈ pieces, sep ∉ p) :
    splitSep sep (encodeListT sep pieces) = pieces ++ [[]] := by
  induction pieces with
  | nil => rfl
  | cons p ps ih =>
    have hp : sep ∉ p := h p (List.mem_cons_self p ps)
    have hps : ∀ q ∈ ps, sep ∉ q := fun q hq => h q (List.mem_cons_of_mem p hq)
    have hstep : encodeListT sep (p :: ps) = p ++ sep :: encodeListT sep ps := by
      rw [encodeListT, List.map_cons, List.flatten_cons, List.append_assoc,
        List.singleton_append]
      rfl
    rw [hstep, splitSep_append hp, ih hps]
    rfl

theorem decodeListT_encodeListT {sep : Char} {pieces : List (List Char)}
    (h : ∀ p ∈ pieces, sep ∉ p) :
    decodeListT sep (encodeListT sep pieces) = pieces := by
  rw [decodeListT, splitSep_encodeListT h]
  simp

theorem decodeAll_map_encode {α : Type} (f : List Char → Option α)
    (enc : α → List Char) {xs : List α} (h : ∀ x ∈ xs, f (enc x) = some x) :
    decodeAll f (xs.map enc) = some xs := by
  induction xs with
  | nil => rfl
  | cons x xs2 ih =>
    have hx := h x (List.mem_cons_self x xs2)
    have hxs : ∀ y ∈ xs2, f (enc y) = some y :=
      fun y hy => h y (List.mem_cons_of_mem x hy)
    rw [List.map_cons, decodeAll, hx, ih hxs]

theorem mem_encodeListT {sep : Char} {pieces : List (List Char)} {c : Char}
    (hc : c ∈ encodeListT sep pieces) : c = sep ∨ ∃ p ∈ pieces, c ∈ p := by
  unfold encodeListT at hc
  rw [List.mem_flatten] at hc
  obtain ⟨l, hl, hcl⟩ := hc
  rw [List.mem_map] at hl
  obtain ⟨p, hp, rfl⟩ := hl
  rcases List.mem_append.mp hcl with h | h
  · exact Or.inr ⟨p, hp, h⟩
  · rw [List.mem_singleton] at h
    exact Or.inl h

theorem mem_encodeId {id : SemverId} (hval : SemverId.validB id = true)
    {c : Char} (hc : c ∈ encodeId id) :
    c = 'n' ∨ c = 'a' ∨ isSepFree c = true := by
  cases id with
  | num n =>
    rcases List.mem_cons.mp hc with h | h
    · exact Or.inl h
    · refine Or.inr (Or.inr ?_)
      have hall := encodeNat_all_sepFree n
      rw [List.all_eq_true] at hall
      exact hall c h
  | alpha s =>
    rcases List.mem_cons.mp hc with h | h
    · exact Or.inr (Or.inl h)
    · refine Or.inr (Or.inr ?_)
      have hv : validStrB s = true := hval
      rw [validStrB, List.all_eq_true] at hv
      exact hv c h

theorem not_mem_encodeId {id : SemverId} (hval : SemverId.validB id = true)
    {d : Char} (hd : isSepFree d = false) (hn : d ≠ 'n') (ha : d ≠ 'a') :
    d ∉ encodeId id := by
  intro hmem
  rcases mem_encodeId hval hmem with h | h | h
  · exact hn h
  · exact ha h
  · rw [h] at hd; cases hd

theorem mem_encodeFeature {kv : String × List String}
    (hk : validStrB kv.1 = true) (hv : kv.2.all validStrB = true) {c : Char}
    (hc : c ∈ encodeFeature kv) : c = ':' ∨ c = '+' ∨ isSepFree c = true := by
  unfold encodeFeature at hc
  rcases List.mem_append.mp hc with h | h
  · refine Or.inr (Or.inr ?_)
    rw [validStrB, List.all_eq_true] at hk
    exact hk c h
  · rcases List.mem_cons.mp h with h2 | h2
    · exact Or.inl h2
    · rcases mem_encodeListT h2 with h3 | ⟨p, hp, hcp⟩
      · exact Or.inr (Or.inl h3)
      · refine Or.inr (Or.inr ?_)
        rw [List.mem_map] at hp
        obtain ⟨v, hvmem, rfl⟩ := hp
        rw [List.all_eq_true] at hv
        have hvv := hv v hvmem
        rw [validStrB, List.all_eq_true] at hvv
        exact hvv c hcp

theorem not_mem_encodeFeature {kv : String × List String}
    (hk : validStrB kv.1 = true) (hv : kv.2.all validStrB = true) {d : Char}
    (hd : isSepFree d = false) (hc1 : d ≠ ':') (hc2 : d ≠ '+') :
    d ∉ encodeFeature kv := by
  intro hmem
  rcases mem_encodeFeature hk hv hmem with h | h | h
  · exact hc1 h
  · exact hc2 h
  · rw [h] at hd; cases hd

theorem mem_encodeYanked {o : Option Bool} {c : Char}
    (hc : c ∈ encodeYanked o) : c = 'u' ∨ c = 'f' ∨ c = 't' := by
  rcases o with _ | b
  · rw [encodeYanked] at hc
    exact Or.inl (List.mem_singleton.mp hc)
  · cases b
    · rw [encodeYanked] at hc
      exact Or.inr (Or.inl (List.mem_singleton.mp hc))
    · rw [encodeYanked] at hc
      exact Or.inr (Or.inr (List.mem_singleton.mp hc))

theorem stringMk_data (s : String) : String.mk s.data = s := rfl

theorem map_mk_map_data (l : List String) : (l.map String.data).map String.mk = l := by
  induction l with
  | nil => rfl
  | cons s l2 ih => simp [ih]

theorem decodeId_encodeId {id : SemverId} (hval : SemverId.validB id = true) :
    decodeId (encodeId id) = some id := by
  cases id with
  | num n =>
    calc decodeId (encodeId (.num n))
        = some (.num (decodeNat (encodeNat n))) := rfl
      _ = some (.num n) := by rw [decodeNat_encodeNat]
  | alpha s => rfl

theorem decodeYanked_encodeYanked (o : Option Bool) :
    decodeYanked (encodeYanked o) = some o := by
  rcases o with _ | b
  · rfl
  · cases b <;> rfl

theorem decodeFeature_encodeFeature {kv : String × List String}
    (hk : validStrB kv.1 = true) (hv : kv.2.all validStrB = true) :
    decodeFeature (encodeFeature kv) = some kv := by
  obtain ⟨k, vals⟩ := kv
  have hk2 : (':' : Char) ∉ k.data := not_mem_of_all_sepFree hk (by decide)
  have henc : (':' : Char) ∉ encodeListT '+' (vals.map String.data) := by
    intro hmem
    rcases mem_encodeListT hmem with h | ⟨p, hp, hcp⟩
    · exact absurd h (by decide)
    · rw [List.mem_map] at hp
      obtain ⟨v, hvm, rfl⟩ := hp
      rw [List.all_eq_true] at hv
      exact not_mem_of_all_sepFree (hv v hvm) (by decide) hcp
  have hplus : ∀ p ∈ vals.map String.data, ('+' : Char) ∉ p := by
    intro p hp
    rw [List.mem_map] at hp
    obtain ⟨v, hvm, rfl⟩ := hp
    rw [List.all_eq_true] at hv
    exact not_mem_of_all_sepFree (hv v hvm) (by decide)
  show decodeFeature (k.data ++ ':' :: encodeListT '+' (vals.map String.data)) =
    some (k, vals)
  rw [decodeFeature, splitSep_append hk2, splitSep_sepFreeOnly henc]
  show some (String.mk k.data,
    (decodeListT '+' (encodeListT '+' (vals.map String.data))).map String.mk) =
      some (k, vals)
  rw [decodeListT_encodeListT hplus, map_mk_map_data]

theorem decodeRecord_eq_of_split {cs nm ma mi pa pre deps feats ck yk : List Char}
    (hsplit : splitSep '|' cs = [nm, ma, mi, pa, pre, deps, feats, ck, yk]) :
    decodeRecord cs =
      match decodeAll decodeId (decodeListT ',' pre),
            decodeAll decodeFeature (decodeListT ',' feats),
            decodeYanked yk with
      | some preIds, some featList, some yankedV =>
        some { name := String.mk nm,
               vers := { major := decodeNat ma, minor := decodeNat mi,
                         patch := decodeNat pa, pre := preIds },
               deps := (decodeListT ',' deps).map String.mk,
               features := featList,
               cksum := String.mk ck,
               yanked := yankedV }
      | _, _, _ => none := by
  rw [decodeRecord, hsplit]

theorem decodeRecord_encodeRecord {r : CrateVersion} (h : r.validB = true) :
    decodeRecord (encodeRecord r) = some r := by
  rw [CrateVersion.validB, Bool.and_eq_true, Bool.and_eq_true, Bool.and_eq_true,
    Bool.and_eq_true] at h
  obtain ⟨⟨⟨⟨h1, h2⟩, h3⟩, h4⟩, h5⟩ := h
  rw [List.all_eq_true] at h2 h3 h4
  have hnum : ∀ x : Nat, ('|' : Char) ∉ encodeNat x := fun x =>
    not_mem_of_all_sepFree (encodeNat_all_sepFree x) (by decide)
  have hn1 : ('|' : Char) ∉ r.name.data := not_mem_of_all_sepFree h1 (by decide)
  have hpreBar : ('|' : Char) ∉ encodeListT ',' (r.vers.pre.map encodeId) := by
    intro hmem
    rcases mem_encodeListT hmem with hcomma | ⟨p, hp, hcp⟩
    · exact absurd hcomma (by decide)
    · rw [List.mem_map] at hp
      obtain ⟨id, hid, rfl⟩ := hp
      exact not_mem_encodeId (h2 id hid) (by decide) (by decide) (by decide) hcp
  have hdepsBar : ('|' : Char) ∉ encodeListT ',' (r.deps.map String.data) := by
    intro hmem
    rcases mem_encodeListT hmem with hcomma | ⟨p, hp, hcp⟩
    · exact absurd hcomma (by decide)
    · rw [List.mem_map] at hp
      obtain ⟨d, hd, rfl⟩ := hp
      exact not_mem_of_all_sepFree (h3 d hd) (by decide) hcp
  have hfeatsBar : ('|' : Char) ∉ encodeListT ',' (r.features.map encodeFeature) := by
    intro hmem
    rcases mem_encodeListT hmem with hcomma | ⟨p, hp, hcp⟩
    · exact absurd hcomma (by decide)
    · rw [List.mem_map] at hp
      obtain ⟨kv, hkv, rfl⟩ := hp
      have hkv2 := h4 kv hkv
      rw [Bool.and_eq_true] at hkv2
      exact not_mem_encodeFeature hkv2.1 hkv2.2 (by decide) (by decide) (by decide) hcp
  have hckBar : ('|' : Char) ∉ r.cksum.data := not_mem_of_all_sepFree h5 (by decide)
  have hykBar : ('|' : Char) ∉ encodeYanked r.yanked := by
    intro hmem
    rcases mem_encodeYanked hmem with hk | hk | hk <;> exact absurd hk (by decide)
  have hsplit : splitSep '|' (encodeRecord r) =
      [r.name.data, encodeNat r.vers.major, encodeNat r.vers.minor,
       encodeNat r.vers.patch, encodeListT ',' (r.vers.pre.map encodeId),
       encodeListT ',' (r.deps.map String.data),
       encodeListT ',' (r.features.map encodeFeature), r.cksum.data,
       encodeYanked r.yanked] := by
    rw [encodeRecord, splitSep_append hn1, splitSep_append (hnum _),
      splitSep_append (hnum _), splitSep_append (hnum _),
      splitSep_append hpreBar, splitSep_append hdepsBar,
      splitSep_append hfeatsBar, splitSep_append hckBar,
      splitSep_sepFreeOnly hykBar]
  rw [decodeRecord_eq_of_split hsplit]
  have hprecomma : ∀ p ∈ r.vers.pre.map encodeId, (',' : Char) ∉ p := by
    intro p hp
    rw [List.mem_map] at hp
    obtain ⟨id, hid, rfl⟩ := hp
    exact not_mem_encodeId (h2 id hid) (by decide) (by decide) (by decide)
  have hdepcomma : ∀ p ∈ r.deps.map String.data, (',' : Char) ∉ p := by
    intro p hp
    rw [List.mem_map] at hp
    obtain ⟨d, hd, rfl⟩ := hp
    exact not_mem_of_all_sepFree (h3 d hd) (by decide)
  have hfeatcomma : ∀ p ∈ r.features.map encodeFeature, (',' : Char) ∉ p := by
    intro p hp
    rw [List.mem_map] at hp
    obtain ⟨kv, hkv, rfl⟩ := hp
    have hkv2 := h4 kv hkv
    rw [Bool.and_eq_true] at hkv2
    exact not_mem_encodeFeature hkv2.1 hkv2.2 (by decide) (by decide) (by decide)
  have hidRT : ∀ id ∈ r.vers.pre, decodeId (encodeId id) = some id :=
    fun id hid => decodeId_encodeId (h2 id hid)
  have hfeatRT : ∀ kv ∈ r.features, decodeFeature (encodeFeature kv) = some kv := by
    intro kv hkv
    have hkv2 := h4 kv hkv
    rw [Bool.and_eq_true] at hkv2
    exact decodeFeature_encodeFeature hkv2.1 hkv2.2
  rw [decodeListT_encodeListT hprecomma, decodeAll_map_encode decodeId encodeId hidRT,
    decodeListT_encodeListT hfeatcomma,
    decodeAll_map_encode decodeFeature encodeFeature hfeatRT,
    decodeYanked_encodeYanked, decodeListT_encodeListT hdepcomma]
  show some { name := String.mk r.name.data,
              vers := { major := decodeNat (encodeNat r.vers.major),
                        minor := decodeNat (encodeNat r.vers.minor),
                        patch := decodeNat (encodeNat r.vers.patch),
                        pre := r.vers.pre },
              deps := (r.deps.map String.data).map String.mk,
              features := r.features,
              cksum := String.mk r.cksum.data,
              yanked := r.yanked } = some r
  rw [decodeNat_encodeNat, decodeNat_encodeNat, decodeNat_encodeNat, map_mk_map_data]

theorem mem_encodeRecord {r : CrateVersion} (h : r.validB = true) {c : Char}
    (hc : c ∈ encodeRecord r) :
    isSepFree c = true ∨ c = '|' ∨ c = ',' ∨ c = ':' ∨ c = '+' := by
  rw [CrateVersion.validB, Bool.and_eq_true, Bool.and_eq_true, Bool.and_eq_true,
    Bool.and_eq_true] at h
  obtain ⟨⟨⟨⟨h1, h2⟩, h3⟩, h4⟩, h5⟩ := h
  rw [validStrB, List.all_eq_true] at h1 h5
  rw [List.all_eq_true] at h2 h3 h4
  have hnum : ∀ x : Nat, c ∈ encodeNat x → isSepFree c = true := by
    intro x hx
    have hall := encodeNat_all_sepFree x
    rw [List.all_eq_true] at hall
    exact hall c hx
  rw [encodeRecord] at hc
  rcases List.mem_append.mp hc with hf | hc1
  · exact Or.inl (h1 c hf)
  rcases List.mem_cons.mp hc1 with hf | hc2
  · exact Or.inr (Or.inl hf)
  rcases List.mem_append.mp hc2 with hf | hc3
  · exact Or.inl (hnum _ hf)
  rcases List.mem_cons.mp hc3 with hf | hc4
  · exact Or.inr (Or.inl hf)
  rcases List.mem_append.mp hc4 with hf | hc5
  · exact Or.inl (hnum _ hf)
  rcases List.mem_cons.mp hc5 with hf | hc6
  · exact Or.inr (Or.inl hf)
  rcases List.mem_append.mp hc6 with hf | hc7
  · exact Or.inl (hnum _ hf)
  rcases List.mem_cons.mp hc7 with hf | hc8
  · exact Or.inr (Or.inl hf)
  rcases List.mem_append.mp hc8 with hf | hc9
  · rcases mem_encodeListT hf with hcm | ⟨p, hp, hcp⟩
    · exact Or.inr (Or.inr (Or.inl hcm))
    · rw [List.mem_map] at hp
      obtain ⟨id, hid, rfl⟩ := hp
      rcases mem_encodeId (h2 id hid) hcp with hk | hk | hk
      · rw [hk]; exact Or.inl (by decide)
      · rw [hk]; exact Or.inl (by decide)
      · exact Or.inl hk
  rcases List.mem_cons.mp hc9 with hf | hc10
  · exact Or.inr (Or.inl hf)
  rcases List.mem_append.mp hc10 with hf | hc11
  · rcases mem_encodeListT hf with hcm | ⟨p, hp, hcp⟩
    · exact Or.inr (Or.inr (Or.inl hcm))
    · rw [List.mem_map] at hp
      obtain ⟨d, hd, rfl⟩ := hp
      have hdd := h3 d hd
      rw [validStrB, List.all_eq_true] at hdd
      exact Or.inl (hdd c hcp)
  rcases List.mem_cons.mp hc11 with hf | hc12
  · exact Or.inr (Or.inl hf)
  rcases List.mem_append.mp hc12 with hf | hc13
  · rcases mem_encodeListT hf with hcm | ⟨p, hp, hcp⟩
    · exact Or.inr (Or.inr (Or.inl hcm))
    · rw [List.mem_map] at hp
      obtain ⟨kv, hkv, rfl⟩ := hp
      have hkv2 := h4 kv hkv
      rw [Bool.and_eq_true] at hkv2
      rcases mem_encodeFeature hkv2.1 hkv2.2 hcp with hk | hk | hk
      · exact Or.inr (Or.inr (Or.inr (Or.inl hk)))
      · exact Or.inr (Or.inr (Or.inr (Or.inr hk)))
      · exact Or.inl hk
  rcases List.mem_cons.mp hc13 with hf | hc14
  · exact Or.inr (Or.inl hf)
  rcases List.mem_append.mp hc14 with hf | hc15
  · exact Or.inl (h5 c hf)
  rcases List.mem_cons.mp hc15 with hf | hc16
  · exact Or.inr (Or.inl hf)
  rcases mem_encodeYanked hc16 with hk | hk | hk <;>
    (rw [hk]; exact Or.inl (by decide))

/-- Claim C7: encoding a list of valid version records to the line-oriented
textual form and decoding it back yields a value equal to the original in all
fields, including the tri-state yanked flag; feature keys and values are
recovered exactly (the list order is preserved here, which subsumes the
required key/value membership). Validity asks only that the string fields be
free of the codec's separator characters, which package names, semver
identifiers and hexadecimal checksums always are. -/
theorem claim7_codec_roundtrip (rs : List CrateVersion)
    (h : ∀ r ∈ rs, r.validB = true) :
    decodeRecords (encodeRecords rs) = some rs := by
  have hnl : ∀ p ∈ rs.map encodeRecord, ('\n' : Char) ∉ p := by
    intro p hp
    rw [List.mem_map] at hp
    obtain ⟨r, hr, rfl⟩ := hp
    intro hmem
    rcases mem_encodeRecord (h r hr) hmem with hk | hk | hk | hk | hk
    · cases hk
    · cases hk
    · cases hk
    · cases hk
    · cases hk
  have hrt : ∀ r ∈ rs, decodeRecord (encodeRecord r) = some r :=
    fun r hr => decodeRecord_encodeRecord (h r hr)
  rw [decodeRecords, encodeRecords, decodeListT_encodeListT hnl,
    decodeAll_map_encode decodeRecord encodeRecord hrt]

/-- Witness for claim C7: a concrete two-feature, pre-release record
round-trips through the codec. -/
theorem claim7_witness : decodeRecords (encodeRecords [recW]) = some [recW] :=
  claim7_codec_roundtrip [recW] (by decide)
